import Mathlib

/-!
Shallow embedding of the drift-X repository evidence pipeline
(`src/mcp_server/tools/commit_analyzer.py`, `src/history_manager.py`,
`src/agents/compliance_agent.py`, `src/ci_gate.py`) together with
theorems settling the frozen specification claims.

External effects (the `git` subprocess, the LLM call, the filesystem)
are modelled as explicit inputs: a `git` invocation's stdout is an
`Option String` (`none` = `subprocess.CalledProcessError`), the diff
oracle is a function from a pair of commit hashes to such an output,
the judgment service's response is an inductive outcome, and the
directory tree walked by `os.walk` is an explicit `FSTree` value.
All parsing, filtering, accumulation and truncation logic is
translated line by line from the Python source.

Python string primitives (`startswith`, `endswith`, `split`, `strip`,
slicing, `join`) are given direct structural definitions over the
character list of a `String`, mirroring CPython's semantics, so that
every embedded function evaluates by kernel reduction.
-/

namespace DriftX

/-! ## Python string primitives -/

/-- Python slicing `s[:n]` (first `n` code points). -/
def pyTake (s : String) (n : Nat) : String :=
  String.mk (s.toList.take n)

/-- Python slicing `s[n:]` (drop the first `n` code points). -/
def pyDrop (s : String) (n : Nat) : String :=
  String.mk (s.toList.drop n)

/-- Python `s.startswith(pre)`. -/
def pyStartswith (s pre : String) : Bool :=
  List.isPrefixOf pre.toList s.toList

/-- Python `s.endswith(suf)`. -/
def pyEndswith (s suf : String) : Bool :=
  List.isSuffixOf suf.toList s.toList

/-- Split a character list at every occurrence of `c`
(Python `str.split(c)` with a one-character separator). -/
def splitChar (c : Char) : List Char → List (List Char)
  | [] => [[]]
  | x :: xs =>
    if x = c then [] :: splitChar c xs
    else
      match splitChar c xs with
      | [] => [[x]]
      | y :: ys => (x :: y) :: ys

/-- Split at every occurrence of `c` but at most `limit` times
(Python `str.split(c, limit)` with a one-character separator). -/
def splitCharLimit (c : Char) : Nat → List Char → List (List Char)
  | _, [] => [[]]
  | 0, l => [l]
  | n + 1, x :: xs =>
    if x = c then [] :: splitCharLimit c n xs
    else
      match splitCharLimit c (n + 1) xs with
      | [] => [[x]]
      | y :: ys => (x :: y) :: ys

/-- Python `s.split(sep)` for a one-character separator `sep`. -/
def pySplitChar (s : String) (c : Char) : List String :=
  (splitChar c s.toList).map String.mk

/-- Python `s.split(sep, limit)` for a one-character separator `sep`. -/
def pySplitCharLimit (s : String) (c : Char) (limit : Nat) : List String :=
  (splitCharLimit c limit s.toList).map String.mk

/-- ASCII whitespace as recognized by Python `str.strip()`. -/
def isPySpace (c : Char) : Bool :=
  c = ' ' || c = '\t' || c = '\n' || c = '\x0d' || c = '\x0b' || c = '\x0c'

/-- Python `s.strip()`. -/
def pyStrip (s : String) : String :=
  String.mk (((s.toList.dropWhile isPySpace).reverse.dropWhile isPySpace).reverse)

/-- Python `sep.join(xs)`. -/
def pyJoin (sep : String) : List String → String
  | [] => ""
  | [x] => x
  | x :: y :: xs => x ++ sep ++ pyJoin sep (y :: xs)

/-! ## Diff extractor (`CommitAnalyzer.get_full_diff_between_commits`) -/

/-- The fixed extension allow-list of `CommitAnalyzer._is_code_file`. -/
def code_extensions : List String :=
  [".py", ".js", ".ts", ".java", ".cpp", ".c", ".cs", ".go",
   ".rb", ".php", ".swift", ".kt", ".rs", ".scala", ".r",
   ".jsx", ".tsx", ".vue", ".html", ".css", ".scss"]

/-- `CommitAnalyzer._is_code_file`: `any(file_path.endswith(ext) for ext in code_extensions)`. -/
def is_code_file (file_path : String) : Bool :=
  code_extensions.any (fun ext => pyEndswith file_path ext)

/-- The per-file diff record: insertion-ordered mapping from file path to
its recorded diff lines (a Python `dict` of lists). -/
abbrev Changes := List (String × List String)

/-- `changes[current_file].append(line)` preceded by
`if current_file not in changes: changes[current_file] = []`:
append `line` to the entry of `file`, creating the key at the end
of the mapping if absent (Python dict insertion order). -/
def addLine (changes : Changes) (file line : String) : Changes :=
  if changes.any (fun p => p.1 = file) then
    changes.map (fun p => if p.1 = file then (p.1, p.2 ++ [line]) else p)
  else
    changes ++ [(file, [line])]

/-- One iteration of the parsing loop of `get_full_diff_between_commits`:
state is `(current_file, changes)`. -/
def parseDiffStep (st : Option String × Changes) (line : String) :
    Option String × Changes :=
  if pyStartswith line "+++ b/" then
    (some (pyDrop line 6), st.2)
  else if (pyStartswith line "-" || pyStartswith line "+")
      && !(pyStartswith line "---" || pyStartswith line "+++") then
    match st.1 with
    | some f =>
      if is_code_file f then (st.1, addLine st.2 f line) else st
    | none => st
  else
    st

/-- The parsing loop of `get_full_diff_between_commits` over the
newline-split diff output. -/
def parseDiff (lines : List String) : Changes :=
  (lines.foldl parseDiffStep (none, [])).2

/-- `CommitAnalyzer.get_full_diff_between_commits`: the `git diff
--unified=0` stdout is the `Option String` input (`none` models
`subprocess.CalledProcessError`, caught and turned into `{}`). -/
def get_full_diff_between_commits (gitOutput : Option String) : Changes :=
  match gitOutput with
  | none => []
  | some result => parseDiff (pySplitChar result '\n')

/-! ## Commit history reader (`CommitAnalyzer.get_commit_history`) -/

/-- One parsed commit of `git log --pretty=format:%H|%s|%ai|%an`. -/
structure Commit where
  hash : String
  message : String
  date : String
  author : String
deriving DecidableEq, Repr

/-- `line.split('|', 3)` followed by the 4-way unpacking
`hash_val, message, date, author = ...`; `none` models the
`ValueError` raised when the line has fewer than four fields. -/
def parseCommitLine (line : String) : Option Commit :=
  match pySplitCharLimit line '|' 3 with
  | [h, m, d, a] => some ⟨h, m, d, a⟩
  | _ => none

/-- The accumulation loop of `get_commit_history` over the
newline-split, stripped `git log` output: empty lines are skipped
(`if line:`), and a malformed line raises (`Except.error`). -/
def parseCommits : List String → Except String (List Commit)
  | [] => .ok []
  | line :: rest =>
    if line = "" then parseCommits rest
    else
      match parseCommitLine line with
      | some c =>
        match parseCommits rest with
        | .ok cs => .ok (c :: cs)
        | .error e => .error e
      | none => .error "ValueError"

/-- `CommitAnalyzer.get_commit_history`: the `git log` stdout is the
`Option String` input (`none` models `subprocess.CalledProcessError`,
caught and turned into `[]`). The `--max-count` bound lives in the
`git` contract, i.e. in a hypothesis on the number of output lines. -/
def get_commit_history (gitOutput : Option String) : Except String (List Commit) :=
  match gitOutput with
  | none => .ok []
  | some result => parseCommits (pySplitChar (pyStrip result) '\n')

/-! ## Deletion timeline builder (`CommitAnalyzer.get_feature_loss_context`) -/

/-- One element of the `deletion_timeline` list. -/
structure TimelineEntry where
  commit_hash : String
  commit_message : String
  commit_date : String
  commit_author : String
  files_modified : List String
  total_lines_deleted : Nat
deriving DecidableEq, Repr

/-- The dict comprehension
`{fp: [l[1:] for l in lines if l.startswith('-')] for fp, lines in changes.items()}`:
note that it keeps every key of `changes`, pairing it with the (possibly
empty) list of its removed lines with the marker stripped. -/
def deletionsOf (changes : Changes) : Changes :=
  changes.map (fun p => (p.1, (p.2.filter (fun l => pyStartswith l "-")).map (fun l => pyDrop l 1)))

/-- The body of one iteration of the pair loop of
`get_feature_loss_context`: given the (newer, older) commits and the
diff oracle, decide whether a timeline entry is appended and build it.
`if deletions:` / `if code_deletions:` are Python dict-truthiness
tests, i.e. non-emptiness of the key set. -/
def timelineEntryFor (diffs : String → String → Option String)
    (newer older : Commit) : Option TimelineEntry :=
  let changes := get_full_diff_between_commits (diffs older.hash newer.hash)
  let deletions := deletionsOf changes
  if deletions.isEmpty then none
  else
    let code_deletions := deletions.filter (fun p => is_code_file p.1)
    if code_deletions.isEmpty then none
    else some
      { commit_hash := pyTake newer.hash 8
        commit_message := newer.message
        commit_date := newer.date
        commit_author := newer.author
        files_modified := code_deletions.map Prod.fst
        total_lines_deleted := (code_deletions.map (fun p => p.2.length)).sum }

/-- The result dict of `get_feature_loss_context`. -/
structure FeatureLossContext where
  total_commits_analyzed : Nat
  commits_with_deletions : Nat
  deletion_timeline : List TimelineEntry
  oldest_commit_hash : String
  oldest_commit_date : String
  newest_commit_hash : String
  newest_commit_date : String
deriving DecidableEq, Repr

/-- `CommitAnalyzer.get_feature_loss_context`, taking the commit list
returned by `get_commit_history` and the diff oracle
(`diffs older newer` is the stdout of `git diff older newer --unified=0`).
The loop `for i in range(len(commits) - 1)` over pairs
`(commits[i], commits[i+1])` is `commits.zip commits.tail`. -/
def get_feature_loss_context (commits : List Commit)
    (diffs : String → String → Option String) : Except String FeatureLossContext :=
  match commits with
  | c0 :: c1 :: rest =>
    let cs := c0 :: c1 :: rest
    let timeline := (cs.zip (c1 :: rest)).filterMap
      (fun p => timelineEntryFor diffs p.1 p.2)
    let oldest := (c1 :: rest).getLast (List.cons_ne_nil _ _)
    .ok
      { total_commits_analyzed := cs.length
        commits_with_deletions := timeline.length
        deletion_timeline := timeline
        oldest_commit_hash := pyTake oldest.hash 8
        oldest_commit_date := oldest.date
        newest_commit_hash := pyTake c0.hash 8
        newest_commit_date := c0.date }
  | _ => .error "Not enough commits"

/-! ## Audit history store (`src/history_manager.py`) -/

/-- One audit history entry as serialized by `save_analysis`. -/
structure AnalysisEntry where
  timestamp : String
  analysis_type : String
  score : ℚ
  summary : String
  last_commit_hash : Option String
deriving DecidableEq, Repr

/-- The backing file's JSON object: an insertion-ordered mapping from
repository URL to its entry list (a Python `dict`). -/
abbrev HistoryMap := List (String × List AnalysisEntry)

/-- Python `history.get(key)` / `key in history` on the mapping. -/
def lookupRepo : HistoryMap → String → Option (List AnalysisEntry)
  | [], _ => none
  | (k, v) :: rest, key => if k = key then some v else lookupRepo rest key

/-- Python `history[key] = v`: overwrite in place if the key exists,
otherwise add the key at the end (dict insertion order). -/
def setRepo (h : HistoryMap) (key : String) (v : List AnalysisEntry) : HistoryMap :=
  if h.any (fun p => p.1 = key) then
    h.map (fun p => if p.1 = key then (p.1, v) else p)
  else
    h ++ [(key, v)]

/-- Python `del history[key]`. -/
def delRepo (h : HistoryMap) (key : String) : HistoryMap :=
  h.filter (fun p => p.1 ≠ key)

/-- `load_all_history`: the backing file's content, where `none` models
both "file does not exist" and "json.load raised" (the bare `except`),
each yielding the empty mapping. -/
def load_all_history (file : Option HistoryMap) : HistoryMap :=
  file.getD []

/-- `save_analysis(repo_url, analysis_type, score, summary, last_commit_hash)`:
load, build the entry (with the wall-clock `timestamp` as an explicit
input), prepend at index 0, truncate to 10, rewrite the whole file.
The returned mapping is the new file content (this function always
writes). -/
def save_analysis (file : Option HistoryMap) (repo_url : String)
    (analysis_type : String) (score : ℚ) (summary : String)
    (last_commit_hash : Option String) (timestamp : String) : HistoryMap :=
  let history := load_all_history file
  let entry : AnalysisEntry :=
    { timestamp := timestamp
      analysis_type := analysis_type
      score := score
      summary := summary
      last_commit_hash := last_commit_hash }
  let prev := (lookupRepo history repo_url).getD []
  setRepo history repo_url ((entry :: prev).take 10)

/-- `save_analysis` with the entry's fields bundled. -/
def save_analysis_entry (file : Option HistoryMap) (repo_url : String)
    (e : AnalysisEntry) : HistoryMap :=
  save_analysis file repo_url e.analysis_type e.score e.summary
    e.last_commit_hash e.timestamp

/-- `get_repo_history`: `history.get(repo_url, [])`. -/
def get_repo_history (file : Option HistoryMap) (repo_url : String) :
    List AnalysisEntry :=
  (lookupRepo (load_all_history file) repo_url).getD []

/-- Result of `clear_repo_history`: the backing file content after the
call, whether the file was (re)written, and the returned boolean. -/
structure ClearResult where
  newFile : Option HistoryMap
  wroteFile : Bool
  returned : Bool
deriving DecidableEq, Repr

/-- `clear_repo_history`: delete the key and rewrite the file only when
the key is present; otherwise return `False` without touching the file. -/
def clear_repo_history (file : Option HistoryMap) (repo_url : String) :
    ClearResult :=
  let history := load_all_history file
  match lookupRepo history repo_url with
  | some _ =>
    { newFile := some (delRepo history repo_url)
      wroteFile := true
      returned := true }
  | none =>
    { newFile := file, wroteFile := false, returned := false }

/-- Iterated `save_analysis`, threading the backing file. -/
def runSaves (file : Option HistoryMap) (repo : String) :
    List AnalysisEntry → Option HistoryMap
  | [] => file
  | e :: es => runSaves (some (save_analysis_entry file repo e)) repo es

/-! ## Judgment-response post-processing (`ComplianceAgent`) -/

/-- The `"score"` (resp. `"feature_loss_score"`) field of the parsed
JSON response: absent, convertible by `float(...)` to a number, or a
value on which `float(...)` raises. -/
inductive ScoreField where
  | absent
  | num (x : ℚ)
  | invalid
deriving DecidableEq, Repr

/-- The parsed judgment-service response (the fields the clamping code
touches; findings are carried through opaquely). -/
structure LLMParsed where
  score : ScoreField
  findings : List String
deriving DecidableEq, Repr

/-- Outcome of `chain.invoke` + markdown stripping + `json.loads`:
`failure` models any exception on that path (network error, malformed
or non-JSON response). -/
inductive LLMResponse where
  | failure
  | success (d : LLMParsed)
deriving DecidableEq, Repr

/-- `max(0.0, min(100.0, x))`. -/
def clampScore (x : ℚ) : ℚ := max 0 (min 100 x)

/-- Result dict of `ComplianceAgent.unified_analysis`:
`score = none` means the returned dict has no `"score"` key. -/
structure UnifiedResult where
  score : Option ℚ
  issues : List String
deriving DecidableEq, Repr

/-- The response handling of `ComplianceAgent.unified_analysis`
(lines 90–112): on success clamp an existing numeric score, zero a
non-convertible one, and leave an absent one absent; on any exception
return the zero-score, empty-issues dict. -/
def unified_analysis (resp : LLMResponse) : UnifiedResult :=
  match resp with
  | .failure => { score := some 0, issues := [] }
  | .success d =>
    { score :=
        match d.score with
        | .absent => none
        | .num x => some (clampScore x)
        | .invalid => some 0
      issues := d.findings }

/-- Result dict of `ComplianceAgent.analyze_feature_loss_with_history`:
`none` in a score field means that key is absent from the dict. -/
structure FeatureLossResult where
  feature_loss_score : Option ℚ
  score : Option ℚ
  feature_changes : List String
deriving DecidableEq, Repr

/-- The control flow of `ComplianceAgent.analyze_feature_loss_with_history`
around the judgment call (lines 166–170 and 249–285): fewer than two
commits short-circuits to an error dict carrying `"score": 0` (and no
`"feature_loss_score"` key); otherwise the response is parsed and the
`"feature_loss_score"` field is clamped exactly as in `unified_analysis`,
with any exception yielding the zero-score, empty-changes dict. -/
def analyze_feature_loss_with_history (commitCount : Nat)
    (resp : LLMResponse) : FeatureLossResult :=
  if commitCount < 2 then
    { feature_loss_score := none, score := some 0, feature_changes := [] }
  else
    match resp with
    | .failure =>
      { feature_loss_score := some 0, score := none, feature_changes := [] }
    | .success d =>
      { feature_loss_score :=
          match d.score with
          | .absent => none
          | .num x => some (clampScore x)
          | .invalid => some 0
        score := none
        feature_changes := d.findings }

/-! ## Incremental range selection (`ci_gate.main` + `ComplianceAgent`) -/

/-- The scan in `ci_gate.main` (lines 61–67): walk the repo history
newest-first and take the first entry whose `last_commit_hash` is
truthy (present and non-empty). -/
def scan_last_commit : List AnalysisEntry → Option String
  | [] => none
  | e :: rest =>
    match e.last_commit_hash with
    | some h => if h = "" then scan_last_commit rest else some h
    | none => scan_last_commit rest

/-- Python `x if x else d` on an optional string (`if not head_commit:`
treats both `None` and `""` as unset). -/
def truthyOr (v : Option String) (d : String) : String :=
  match v with
  | some s => if s = "" then d else s
  | none => d

/-- The composite range selection: `ci_gate.main` computes the default
base by scanning the stored history, and
`analyze_feature_loss_with_history` (lines 166–178) bails out below two
commits, defaults the head to `commit_history[0]` and the base to
`commit_history[-1]`. Explicit arguments always win. Returns
`(base, head)` as commit hashes. -/
def selectRange (history : List AnalysisEntry) (commits : List Commit)
    (explicit_base explicit_head : Option String) : Option (String × String) :=
  match commits with
  | [] => none
  | [_] => none
  | c :: c2 :: cs =>
    let base_param :=
      match explicit_base with
      | some b => some b
      | none => scan_last_commit history
    let head := truthyOr explicit_head c.hash
    let base := truthyOr base_param (((c2 :: cs).getLast (List.cons_ne_nil _ _)).hash)
    some (base, head)

/-! ## Context summarizer (`ComplianceAgent._get_code_summary`) -/

/-- The suffix tuple of the `file.endswith(...)` skip test. -/
def skip_suffixes : List String :=
  [".png", ".jpg", ".jpeg", ".gif", ".ico", ".pyc", ".git", ".exe",
   ".dll", ".so", ".dylib", ".pdf", ".zip", ".tar.gz", "-lock.json",
   ".lock", ".log"]

/-- The `ignore_dirs` set pruned from the walk. -/
def ignore_dirs : List String :=
  [".git", "node_modules", "__pycache__", "build", "dist", ".next",
   ".venv", "venv", "env", ".idea", ".vscode"]

/-- A file of the walked tree: its basename, size on disk in bytes, and
its decoded text lines (as produced by `f.readlines()`, newline
terminators included). -/
structure FileEntry where
  name : String
  size : Nat
  lines : List String
deriving DecidableEq, Repr

/-- A directory of the walked tree: its basename, its files, and its
subdirectories, in `os.walk` order. -/
inductive FSTree where
  | node (base : String) (files : List FileEntry) (subdirs : List FSTree)

/-- Basename of a tree node. -/
def FSTree.base : FSTree → String
  | .node b _ _ => b

/-- `f"{i}: {line}"` for the 1-based `enumerate`. -/
def lineEntry (i : Nat) (line : String) : String :=
  toString i ++ ": " ++ line

/-- `[f"{i}: {line}" for i, line in enumerate(lines, 1)]`. -/
def numberedLines (lines : List String) : List String :=
  lines.enum.map (fun p => lineEntry (p.1 + 1) p.2)

/-- The per-file accumulation loop: keep appending numbered line
entries while the running character count stays within the per-file
budget, and `break` at the first entry that would exceed it. -/
def greedyLines (budget : Nat) : List String → Nat → List String
  | [], _ => []
  | e :: es, used =>
    if budget < used + e.length then []
    else e :: greedyLines budget es (used + e.length)

/-- `content_with_lines` for one file (per-file budget 3000). -/
def fileContent (lines : List String) : String :=
  String.join (greedyLines 3000 (numberedLines lines) 0)

/-- `file.endswith(skip_suffixes)`. -/
def shouldSkipName (name : String) : Bool :=
  skip_suffixes.any (fun suf => pyEndswith name suf)

/-- The contribution of one file to the summary: nothing when the name
matches the skip suffixes or the size exceeds 100 KiB (the file is
never opened), otherwise the `--- name ---` block with the budgeted
numbered content. -/
def fileBlock (f : FileEntry) : String :=
  if shouldSkipName f.name then ""
  else if 102400 < f.size then ""
  else "--- " ++ f.name ++ " ---\n" ++ fileContent f.lines ++ "\n"

mutual

/-- The `os.walk` accumulation of `_get_code_summary` for the directory
at full path `path`: the directory header (listing every file name,
skipped or not), the per-file blocks, then the subdirectory walks with
`ignore_dirs` pruned (a pruned subtree contributes nothing at all). -/
def walkSummary (path : String) : FSTree → String
  | .node _ files subdirs =>
    "\nDirectory: " ++ path ++ "\nFiles: " ++ pyJoin ", " (files.map FileEntry.name) ++ "\n"
      ++ String.join (files.map fileBlock)
      ++ walkList path subdirs

/-- Walk a sibling list, pruning `ignore_dirs` before descent
(`dirs[:] = [d for d in dirs if d not in ignore_dirs]`). -/
def walkList (parent : String) : List FSTree → String
  | [] => ""
  | t :: ts =>
    (if t.base ∈ ignore_dirs then "" else walkSummary (parent ++ "/" ++ t.base) t)
      ++ walkList parent ts

end

/-- `ComplianceAgent._get_code_summary`: walk the tree rooted at
`repo_path` and hard-truncate the result to the 45000-character global
budget (`summary[:45000]`). -/
def get_code_summary (repo_path : String) (tree : FSTree) : String :=
  pyTake (walkSummary repo_path tree) 45000

/-! ## Helper lemmas: the history mapping -/

lemma lookupRepo_nil (k : String) : lookupRepo [] k = none := rfl

lemma lookupRepo_cons (a : String) (b : List AnalysisEntry)
    (rest : HistoryMap) (k : String) :
    lookupRepo ((a, b) :: rest) k = if a = k then some b else lookupRepo rest k := rfl

lemma lookupRepo_cons' (p : String × List AnalysisEntry)
    (rest : HistoryMap) (k : String) :
    lookupRepo (p :: rest) k = if p.1 = k then some p.2 else lookupRepo rest k := by
  obtain ⟨a, b⟩ := p
  exact lookupRepo_cons a b rest k

lemma lookupRepo_map_update_self (h : HistoryMap) (k : String)
    (v : List AnalysisEntry) (hany : (h.any fun p => p.1 = k) = true) :
    lookupRepo (h.map (fun p => if p.1 = k then (p.1, v) else p)) k = some v := by
  induction h with
  | nil => simp at hany
  | cons p rest ih =>
    simp only [List.map_cons]
    by_cases hp : p.1 = k
    · rw [if_pos hp, lookupRepo_cons, if_pos hp]
    · rw [if_neg hp, lookupRepo_cons', if_neg hp]
      apply ih
      simp only [List.any_cons, Bool.or_eq_true, decide_eq_true_eq] at hany
      exact hany.resolve_left hp

lemma lookupRepo_append_single_self (h : HistoryMap) (k : String)
    (v : List AnalysisEntry) (hany : ¬ (h.any fun p => p.1 = k) = true) :
    lookupRepo (h ++ [(k, v)]) k = some v := by
  induction h with
  | nil => rw [List.nil_append, lookupRepo_cons, if_pos rfl]
  | cons p rest ih =>
    simp only [List.any_cons, Bool.or_eq_true, decide_eq_true_eq, not_or] at hany
    rw [List.cons_append, lookupRepo_cons', if_neg hany.1]
    exact ih (by simpa using hany.2)

lemma lookupRepo_setRepo_self (h : HistoryMap) (k : String)
    (v : List AnalysisEntry) : lookupRepo (setRepo h k v) k = some v := by
  unfold setRepo
  split
  case isTrue hany => exact lookupRepo_map_update_self h k v hany
  case isFalse hany => exact lookupRepo_append_single_self h k v hany

lemma lookupRepo_map_update_other (h : HistoryMap) (k r : String)
    (v : List AnalysisEntry) (hne : r ≠ k) :
    lookupRepo (h.map (fun p => if p.1 = k then (p.1, v) else p)) r = lookupRepo h r := by
  induction h with
  | nil => rfl
  | cons p rest ih =>
    simp only [List.map_cons]
    by_cases hp : p.1 = k
    · have hkr : ¬ p.1 = r := by rw [hp]; exact fun hc => hne hc.symm
      rw [if_pos hp, lookupRepo_cons, lookupRepo_cons', if_neg hkr, if_neg hkr]
      exact ih
    · rw [if_neg hp, lookupRepo_cons', lookupRepo_cons']
      exact if_congr Iff.rfl rfl ih

lemma lookupRepo_append_single_other (h : HistoryMap) (k r : String)
    (v : List AnalysisEntry) (hne : r ≠ k) :
    lookupRepo (h ++ [(k, v)]) r = lookupRepo h r := by
  induction h with
  | nil =>
    rw [List.nil_append, lookupRepo_cons, if_neg (fun hc => hne hc.symm)]
  | cons p rest ih =>
    rw [List.cons_append, lookupRepo_cons', lookupRepo_cons', ih]

lemma lookupRepo_setRepo_other (h : HistoryMap) (k r : String)
    (v : List AnalysisEntry) (hne : r ≠ k) :
    lookupRepo (setRepo h k v) r = lookupRepo h r := by
  unfold setRepo
  split
  · exact lookupRepo_map_update_other h k r v hne
  · exact lookupRepo_append_single_other h k r v hne

lemma lookupRepo_delRepo_self (h : HistoryMap) (k : String) :
    lookupRepo (delRepo h k) k = none := by
  induction h with
  | nil => rfl
  | cons p rest ih =>
    by_cases hp : p.1 = k
    · simpa [delRepo, hp] using ih
    · simpa [delRepo, List.filter_cons, hp, lookupRepo_cons'] using ih

lemma take_append_take {α : Type} (a l : List α) (n : Nat) :
    (a ++ l.take n).take n = (a ++ l).take n := by
  rw [List.take_append_eq_append_take, List.take_append_eq_append_take,
    List.take_take, Nat.min_eq_left (Nat.sub_le n a.length)]

lemma get_repo_save (f : Option HistoryMap) (repo : String)
    (e : AnalysisEntry) :
    get_repo_history (some (save_analysis_entry f repo e)) repo
      = (e :: get_repo_history f repo).take 10 := by
  show (lookupRepo (setRepo _ _ _) repo).getD [] = _
  rw [lookupRepo_setRepo_self]
  rfl

lemma runSaves_get (repo : String) (es : List AnalysisEntry) :
    ∀ f, (get_repo_history f repo).length ≤ 10 →
      get_repo_history (runSaves f repo es) repo
        = (es.reverse ++ get_repo_history f repo).take 10 := by
  induction es with
  | nil =>
    intro f hlen
    show get_repo_history f repo = _
    simp [List.take_of_length_le hlen]
  | cons e es ih =>
    intro f hlen
    show get_repo_history (runSaves (some (save_analysis_entry f repo e)) repo es) repo = _
    have hstep := get_repo_save f repo e
    have hlen' : (get_repo_history (some (save_analysis_entry f repo e)) repo).length ≤ 10 := by
      rw [hstep]; exact List.length_take_le 10 _
    rw [ih _ hlen', hstep]
    have hcons : (e :: get_repo_history f repo) = [e] ++ get_repo_history f repo := rfl
    rw [hcons, take_append_take, List.reverse_cons, List.append_assoc]

/-! ## Claim C4 -/

/-- C4: a `save_analysis` call inserts the new entry at index 0 of the
target repository's sequence and truncates it to 10; consequently,
starting from a repository with no entries, after `N` appends
`get_repo_history` returns exactly `min N 10` entries, newest-first by
insertion order (the reverse of the append order, truncated to 10). -/
theorem C4_append_then_list (f : Option HistoryMap) (repo : String)
    (e : AnalysisEntry) (es : List AnalysisEntry)
    (hempty : get_repo_history f repo = []) :
    get_repo_history (some (save_analysis_entry f repo e)) repo
      = (e :: get_repo_history f repo).take 10 ∧
    get_repo_history (runSaves f repo es) repo = es.reverse.take 10 ∧
    (get_repo_history (runSaves f repo es) repo).length = min es.length 10 := by
  have hmain : get_repo_history (runSaves f repo es) repo = es.reverse.take 10 := by
    have h := runSaves_get repo es f (by rw [hempty]; exact Nat.zero_le 10)
    rwa [hempty, List.append_nil] at h
  refine ⟨get_repo_save f repo e, hmain, ?_⟩
  rw [hmain, List.length_take, List.length_reverse, Nat.min_comm]

/-- Sample entries for the history-store witnesses. -/
def entryOf (i : Nat) : AnalysisEntry :=
  { timestamp := toString i
    analysis_type := "Unified"
    score := 90
    summary := "ok"
    last_commit_hash := none }

/-- Witness for C4: three appends to an empty store list back
newest-first. -/
theorem C4_append_then_list_witness :
    get_repo_history (some []) "repo" = [] ∧
    get_repo_history
        (some (save_analysis_entry (some []) "repo" (entryOf 1))) "repo"
      = (entryOf 1 :: get_repo_history (some []) "repo").take 10 ∧
    get_repo_history (runSaves (some []) "repo" [entryOf 1, entryOf 2, entryOf 3]) "repo"
      = [entryOf 1, entryOf 2, entryOf 3].reverse.take 10 ∧
    (get_repo_history (runSaves (some []) "repo" [entryOf 1, entryOf 2, entryOf 3]) "repo").length
      = min 3 10 := by
  have h := C4_append_then_list (some []) "repo" (entryOf 1)
    [entryOf 1, entryOf 2, entryOf 3] rfl
  exact ⟨rfl, h.1, h.2.1, h.2.2⟩

/-! ## Claim C9 -/

/-- C9: `clear_repo_history` on a repository with no stored entries
returns `False` and leaves the backing file (hence every other
repository's entries) untouched; on a repository with stored entries it
returns `True` and afterwards `get_repo_history` of that repository is
empty while every other repository's entries are unchanged; an absent
or corrupt backing file is read as the empty mapping. -/
theorem C9_clear_semantics :
    (∀ f r, lookupRepo (load_all_history f) r = none →
       clear_repo_history f r = ⟨f, false, false⟩) ∧
    (∀ f r v, lookupRepo (load_all_history f) r = some v →
       (clear_repo_history f r).returned = true ∧
       get_repo_history (clear_repo_history f r).newFile r = [] ∧
       (∀ r2, r2 ≠ r →
         get_repo_history (clear_repo_history f r).newFile r2
           = get_repo_history f r2)) ∧
    load_all_history none = [] := by
  refine ⟨?_, ?_, rfl⟩
  · intro f r hnone
    simp only [clear_repo_history, hnone]
  · intro f r v hsome
    have hred : clear_repo_history f r
        = ⟨some (delRepo (load_all_history f) r), true, true⟩ := by
      simp only [clear_repo_history, hsome]
    rw [hred]
    refine ⟨rfl, ?_, ?_⟩
    · show (lookupRepo (delRepo (load_all_history f) r) r).getD [] = []
      rw [lookupRepo_delRepo_self]
      rfl
    · intro r2 hne
      show (lookupRepo (delRepo (load_all_history f) r) r2).getD []
        = (lookupRepo (load_all_history f) r2).getD []
      have : lookupRepo (delRepo (load_all_history f) r) r2
          = lookupRepo (load_all_history f) r2 := by
        generalize load_all_history f = h
        induction h with
        | nil => rfl
        | cons p rest ih =>
          by_cases hp : p.1 = r
          · rw [delRepo, List.filter_cons_of_neg (by simpa using hp),
              lookupRepo_cons', if_neg (by rw [hp]; exact fun hc => hne hc.symm)]
            exact ih
          · rw [delRepo, List.filter_cons_of_pos (by simpa using hp),
              lookupRepo_cons', lookupRepo_cons']
            exact if_congr Iff.rfl rfl ih
      rw [this]

/-- Witness for C9: clearing a missing repository is a no-op returning
`False`; clearing a present one empties it and preserves its sibling. -/
theorem C9_clear_semantics_witness :
    clear_repo_history (some [("a", [entryOf 1])]) "b"
      = ⟨some [("a", [entryOf 1])], false, false⟩ ∧
    (clear_repo_history (some [("a", [entryOf 1]), ("b", [entryOf 2])]) "a").returned = true ∧
    get_repo_history
      (clear_repo_history (some [("a", [entryOf 1]), ("b", [entryOf 2])]) "a").newFile "a" = [] ∧
    get_repo_history
        (clear_repo_history (some [("a", [entryOf 1]), ("b", [entryOf 2])]) "a").newFile "b"
      = get_repo_history (some [("a", [entryOf 1]), ("b", [entryOf 2])]) "b" := by
  have h1 := C9_clear_semantics.1 (some [("a", [entryOf 1])]) "b" rfl
  have h2 := C9_clear_semantics.2.1 (some [("a", [entryOf 1]), ("b", [entryOf 2])]) "a"
    [entryOf 1] rfl
  exact ⟨h1, h2.1, h2.2.1, h2.2.2 "b" (by decide)⟩

/-! ## Claim C10 -/

/-- C10: `save_analysis` leaves the stored sequences of every other
repository identifier unchanged, and `clear_repo_history` on an absent
repository returns `False` without writing the backing file at all. -/
theorem C10_save_frame_clear_no_write :
    (∀ f repo ty sc su lc t r, r ≠ repo →
       lookupRepo (save_analysis f repo ty sc su lc t) r
         = lookupRepo (load_all_history f) r) ∧
    (∀ f repo, lookupRepo (load_all_history f) repo = none →
       (clear_repo_history f repo).returned = false ∧
       (clear_repo_history f repo).wroteFile = false ∧
       (clear_repo_history f repo).newFile = f) := by
  constructor
  · intro f repo ty sc su lc t r hne
    unfold save_analysis
    exact lookupRepo_setRepo_other _ _ _ _ hne
  · intro f repo hnone
    have hred : clear_repo_history f repo = ⟨f, false, false⟩ := by
      simp only [clear_repo_history, hnone]
    rw [hred]
    exact ⟨rfl, rfl, rfl⟩

/-- Witness for C10: saving under `"a"` does not disturb `"b"`, and a
failed clear leaves the file exactly as it was. -/
theorem C10_save_frame_clear_no_write_witness :
    lookupRepo (save_analysis (some [("b", [entryOf 2])]) "a" "Unified" 90 "ok" none "t") "b"
      = lookupRepo (load_all_history (some [("b", [entryOf 2])])) "b" ∧
    (clear_repo_history (some [("b", [entryOf 2])]) "a").returned = false ∧
    (clear_repo_history (some [("b", [entryOf 2])]) "a").wroteFile = false ∧
    (clear_repo_history (some [("b", [entryOf 2])]) "a").newFile = some [("b", [entryOf 2])] := by
  have h1 := C10_save_frame_clear_no_write.1 (some [("b", [entryOf 2])]) "a"
    "Unified" 90 "ok" none "t" "b" (by decide)
  have h2 := C10_save_frame_clear_no_write.2 (some [("b", [entryOf 2])]) "a" rfl
  exact ⟨h1, h2.1, h2.2.1, h2.2.2⟩

/-! ## Claim C3 -/

lemma clampScore_nonneg (x : ℚ) : 0 ≤ clampScore x :=
  le_max_left 0 _

lemma clampScore_le_100 (x : ℚ) : clampScore x ≤ 100 :=
  max_le (by norm_num) (min_le_left _ _)

/-- C3: every `score` returned by `unified_analysis` and every
`feature_loss_score` (or early-return `score`) returned by
`analyze_feature_loss_with_history` lies in `[0, 100]`, whatever the
judgment service's response contains — out-of-range or non-numeric
values are clamped or zeroed — and a malformed / non-JSON response
yields the zero-score, empty-findings result instead of an exception. -/
theorem C3_scores_clamped :
    (∀ resp x, (unified_analysis resp).score = some x → 0 ≤ x ∧ x ≤ 100) ∧
    ((unified_analysis .failure).score = some 0 ∧
      (unified_analysis .failure).issues = []) ∧
    (∀ n resp x, (analyze_feature_loss_with_history n resp).feature_loss_score = some x →
       0 ≤ x ∧ x ≤ 100) ∧
    (∀ n resp x, (analyze_feature_loss_with_history n resp).score = some x →
       0 ≤ x ∧ x ≤ 100) ∧
    (∀ n, 2 ≤ n →
       (analyze_feature_loss_with_history n .failure).feature_loss_score = some 0 ∧
       (analyze_feature_loss_with_history n .failure).feature_changes = []) := by
  refine ⟨?_, ⟨rfl, rfl⟩, ?_, ?_, ?_⟩
  · intro resp x hx
    cases resp with
    | failure =>
      simp only [unified_analysis, Option.some.injEq] at hx
      subst hx
      norm_num
    | success d =>
      cases hs : d.score with
      | absent => simp [unified_analysis, hs] at hx
      | num y =>
        simp only [unified_analysis, hs, Option.some.injEq] at hx
        subst hx
        exact ⟨clampScore_nonneg y, clampScore_le_100 y⟩
      | invalid =>
        simp only [unified_analysis, hs, Option.some.injEq] at hx
        subst hx
        norm_num
  · intro n resp x hx
    unfold analyze_feature_loss_with_history at hx
    split at hx
    · simp at hx
    · cases resp with
      | failure =>
        simp only [Option.some.injEq] at hx
        subst hx
        norm_num
      | success d =>
        cases hs : d.score with
        | absent => simp [hs] at hx
        | num y =>
          simp only [hs, Option.some.injEq] at hx
          subst hx
          exact ⟨clampScore_nonneg y, clampScore_le_100 y⟩
        | invalid =>
          simp only [hs, Option.some.injEq] at hx
          subst hx
          norm_num
  · intro n resp x hx
    unfold analyze_feature_loss_with_history at hx
    split at hx
    · simp only [Option.some.injEq] at hx
      subst hx
      norm_num
    · cases resp with
      | failure => simp at hx
      | success d => simp at hx
  · intro n hn
    unfold analyze_feature_loss_with_history
    rw [if_neg (by omega)]
    exact ⟨rfl, rfl⟩

/-- Witness for C3: an out-of-range numeric score 250 comes back
clamped into `[0, 100]`, and a malformed response at three commits
yields the zero-score, empty-changes dict. -/
theorem C3_scores_clamped_witness :
    (0 ≤ (100 : ℚ) ∧ (100 : ℚ) ≤ 100) ∧
    (analyze_feature_loss_with_history 3 .failure).feature_loss_score = some 0 ∧
    (analyze_feature_loss_with_history 3 .failure).feature_changes = [] := by
  constructor
  · exact C3_scores_clamped.1 (.success ⟨.num 250, []⟩) 100
      (by norm_num [unified_analysis, clampScore])
  · exact C3_scores_clamped.2.2.2.2 3 (by norm_num)

/-! ## Claim C5 -/

lemma scan_last_commit_cons (e : AnalysisEntry) (rest : List AnalysisEntry) :
    scan_last_commit (e :: rest)
      = match e.last_commit_hash with
        | some h => if h = "" then scan_last_commit rest else some h
        | none => scan_last_commit rest := rfl

lemma scan_last_commit_ne_empty :
    ∀ (es : List AnalysisEntry) (x : String),
      scan_last_commit es = some x → x ≠ "" := by
  intro es
  induction es with
  | nil => intro x hx; simp [scan_last_commit] at hx
  | cons e rest ih =>
    intro x hx
    rw [scan_last_commit_cons] at hx
    cases hl : e.last_commit_hash with
    | none => rw [hl] at hx; exact ih x hx
    | some h =>
      rw [hl] at hx
      simp only at hx
      by_cases hh : h = ""
      · rw [if_pos hh] at hx; exact ih x hx
      · rw [if_neg hh] at hx
        cases hx
        exact hh

lemma truthyOr_some_ne (s d : String) (h : s ≠ "") : truthyOr (some s) d = s := by
  show (if s = "" then d else s) = s
  rw [if_neg h]

lemma selectRange_explicit (hist : List AnalysisEntry) (c c2 : Commit)
    (cs : List Commit) (b hd : String) :
    selectRange hist (c :: c2 :: cs) (some b) (some hd)
      = some (truthyOr (some b) (((c2 :: cs).getLast (List.cons_ne_nil _ _)).hash),
              truthyOr (some hd) c.hash) := rfl

lemma selectRange_default (hist : List AnalysisEntry) (c c2 : Commit)
    (cs : List Commit) :
    selectRange hist (c :: c2 :: cs) none none
      = some (truthyOr (scan_last_commit hist)
                (((c2 :: cs).getLast (List.cons_ne_nil _ _)).hash),
              truthyOr none c.hash) := rfl

/-- C5: range selection resolves in order — explicitly supplied
base/head always win; otherwise the head defaults to the newest
available commit `commits[0]`; otherwise the base defaults to the most
recent persisted `last_commit_hash` found by scanning the stored
history newest-first; and with no such entry (in particular with an
empty history) the selected range is (oldest commit, newest commit).
With fewer than two commits no range is selected. -/
theorem C5_range_resolution :
    (∀ hist (c c2 : Commit) cs b hd, b ≠ "" → hd ≠ "" →
       selectRange hist (c :: c2 :: cs) (some b) (some hd) = some (b, hd)) ∧
    (∀ hist (c c2 : Commit) cs x, scan_last_commit hist = some x →
       selectRange hist (c :: c2 :: cs) none none = some (x, c.hash)) ∧
    (∀ hist (c c2 : Commit) cs, scan_last_commit hist = none →
       selectRange hist (c :: c2 :: cs) none none
         = some ((((c2 :: cs).getLast (List.cons_ne_nil _ _)).hash), c.hash)) ∧
    (∀ (c c2 : Commit) cs,
       selectRange [] (c :: c2 :: cs) none none
         = some ((((c2 :: cs).getLast (List.cons_ne_nil _ _)).hash), c.hash)) ∧
    (∀ hist eb eh (c : Commit), selectRange hist [] eb eh = none ∧
       selectRange hist [c] eb eh = none) := by
  refine ⟨?_, ?_, ?_, ?_, ?_⟩
  · intro hist c c2 cs b hd hb hhd
    rw [selectRange_explicit, truthyOr_some_ne _ _ hb, truthyOr_some_ne _ _ hhd]
  · intro hist c c2 cs x hx
    rw [selectRange_default, hx,
      truthyOr_some_ne _ _ (scan_last_commit_ne_empty hist x hx)]
    rfl
  · intro hist c c2 cs hx
    rw [selectRange_default, hx]
    rfl
  · intro c c2 cs
    rfl
  · intro hist eb eh c
    exact ⟨rfl, rfl⟩

/-- Witness for C5: with a stored hash `"abc123"` in the history the
base is `"abc123"` and the head is the newest commit; explicit
arguments override both. -/
theorem C5_range_resolution_witness :
    selectRange [{ timestamp := "t", analysis_type := "Unified", score := 90,
                   summary := "ok", last_commit_hash := some "abc123" }]
        [⟨"headhash", "m2", "d2", "a2"⟩, ⟨"oldhash", "m1", "d1", "a1"⟩] none none
      = some ("abc123", "headhash") ∧
    selectRange [] [⟨"headhash", "m2", "d2", "a2"⟩, ⟨"oldhash", "m1", "d1", "a1"⟩]
        (some "base0") (some "head0")
      = some ("base0", "head0") := by
  constructor
  · exact C5_range_resolution.2.1
      [{ timestamp := "t", analysis_type := "Unified", score := 90,
         summary := "ok", last_commit_hash := some "abc123" }]
      ⟨"headhash", "m2", "d2", "a2"⟩ ⟨"oldhash", "m1", "d1", "a1"⟩ [] "abc123" rfl
  · exact C5_range_resolution.1 [] ⟨"headhash", "m2", "d2", "a2"⟩
      ⟨"oldhash", "m1", "d1", "a1"⟩ [] "base0" "head0" (by decide) (by decide)

/-! ## Claim C8 -/

lemma parseCommits_cons (line : String) (rest : List String) :
    parseCommits (line :: rest)
      = if line = "" then parseCommits rest
        else
          match parseCommitLine line with
          | some c =>
            match parseCommits rest with
            | .ok cs => .ok (c :: cs)
            | .error e => .error e
          | none => .error "ValueError" := rfl

lemma parseCommits_ok_length :
    ∀ (ls : List String) (cs : List Commit),
      parseCommits ls = .ok cs → cs.length ≤ ls.length := by
  intro ls
  induction ls with
  | nil =>
    intro cs h
    cases h
    exact Nat.le_refl 0
  | cons line rest ih =>
    intro cs h
    rw [parseCommits_cons] at h
    by_cases hline : line = ""
    · rw [if_pos hline] at h
      exact Nat.le_succ_of_le (ih cs h)
    · rw [if_neg hline] at h
      cases hc : parseCommitLine line with
      | none => rw [hc] at h; cases h
      | some c =>
        rw [hc] at h
        simp only at h
        cases hr : parseCommits rest with
        | error e => rw [hr] at h; cases h
        | ok cs' =>
          rw [hr] at h
          cases h
          exact Nat.succ_le_succ (ih cs' hr)

lemma parseCommits_ok_filterMap :
    ∀ (ls : List String) (cs : List Commit),
      parseCommits ls = .ok cs →
      cs = (ls.filter (fun l => l ≠ "")).filterMap parseCommitLine := by
  intro ls
  induction ls with
  | nil =>
    intro cs h
    cases h
    rfl
  | cons line rest ih =>
    intro cs h
    rw [parseCommits_cons] at h
    by_cases hline : line = ""
    · rw [if_pos hline] at h
      rw [List.filter_cons_of_neg (by simpa using hline)]
      exact ih cs h
    · rw [if_neg hline] at h
      cases hc : parseCommitLine line with
      | none => rw [hc] at h; cases h
      | some c =>
        rw [hc] at h
        simp only at h
        cases hr : parseCommits rest with
        | error e => rw [hr] at h; cases h
        | ok cs' =>
          rw [hr] at h
          cases h
          rw [List.filter_cons_of_pos (by simpa using hline),
            List.filterMap_cons, hc, ih cs' hr]

/-- C8: `get_commit_history` turns a failing `git log` invocation into
the empty sequence instead of an exception; on a successful invocation
whose output has at most `maxCount` lines (the `--max-count` contract),
the returned sequence has length at most `maxCount`; and the returned
commits are exactly the in-order parses of the non-empty output lines,
so the reader preserves `git log`'s newest-first ordering. -/
theorem C8_commit_history_reader :
    (get_commit_history none = .ok []) ∧
    (∀ out (maxCount : Nat) cs, get_commit_history (some out) = .ok cs →
       (pySplitChar (pyStrip out) '\n').length ≤ maxCount →
       cs.length ≤ maxCount) ∧
    (∀ out cs, get_commit_history (some out) = .ok cs →
       cs = ((pySplitChar (pyStrip out) '\n').filter
              (fun l => l ≠ "")).filterMap parseCommitLine) := by
  refine ⟨rfl, ?_, ?_⟩
  · intro out maxCount cs hok hm
    exact Nat.le_trans (parseCommits_ok_length _ cs hok) hm
  · intro out cs hok
    exact parseCommits_ok_filterMap _ cs hok

/-- Witness for C8: a two-line `git log` output yields two commits,
newest first, within the bound 2. -/
theorem C8_commit_history_reader_witness :
    get_commit_history none = .ok [] ∧
    ([⟨"h1", "m1", "2024-01-01", "alice"⟩,
      ⟨"h2", "m2", "2024-01-02", "bob"⟩] : List Commit).length ≤ 2 ∧
    ([⟨"h1", "m1", "2024-01-01", "alice"⟩,
      ⟨"h2", "m2", "2024-01-02", "bob"⟩] : List Commit)
      = ((pySplitChar (pyStrip "h1|m1|2024-01-01|alice\nh2|m2|2024-01-02|bob") '\n').filter
          (fun l => l ≠ "")).filterMap parseCommitLine := by
  refine ⟨C8_commit_history_reader.1, ?_, ?_⟩
  · exact C8_commit_history_reader.2.1 "h1|m1|2024-01-01|alice\nh2|m2|2024-01-02|bob" 2
      [⟨"h1", "m1", "2024-01-01", "alice"⟩, ⟨"h2", "m2", "2024-01-02", "bob"⟩]
      (by rfl) (by decide)
  · exact C8_commit_history_reader.2.2 "h1|m1|2024-01-01|alice\nh2|m2|2024-01-02|bob"
      [⟨"h1", "m1", "2024-01-01", "alice"⟩, ⟨"h2", "m2", "2024-01-02", "bob"⟩]
      (by rfl)

/-! ## Diff-extractor invariants (claims C2 and C7) -/

/-- The content-line condition of the parsing loop, verbatim. -/
def contentLine (l : String) : Bool :=
  (pyStartswith l "-" || pyStartswith l "+")
    && !(pyStartswith l "---" || pyStartswith l "+++")

/-- Soundness invariant of the parsing state: every recorded file has a
recognized extension and every recorded line is a content line drawn
verbatim from the pool `L` of input lines. -/
def GoodChanges (L : List String) (changes : Changes) : Prop :=
  ∀ p ∈ changes, is_code_file p.1 = true ∧
    ∀ l ∈ p.2, contentLine l = true ∧ l ∈ L

lemma addLine_good {L : List String} {ch : Changes} {f l : String}
    (h : GoodChanges L ch) (hf : is_code_file f = true)
    (hl : contentLine l = true) (hmem : l ∈ L) :
    GoodChanges L (addLine ch f l) := by
  intro p hp
  unfold addLine at hp
  split at hp
  · rcases List.mem_map.1 hp with ⟨q, hq, rfl⟩
    by_cases hqf : q.1 = f
    · rw [if_pos hqf]
      refine ⟨(h q hq).1, ?_⟩
      intro l' hl'
      rcases List.mem_append.1 hl' with h1 | h1
      · exact (h q hq).2 l' h1
      · rcases List.mem_singleton.1 h1 with rfl
        exact ⟨hl, hmem⟩
    · rw [if_neg hqf]
      exact h q hq
  · rcases List.mem_append.1 hp with h1 | h1
    · exact h p h1
    · rcases List.mem_singleton.1 h1 with rfl
      refine ⟨hf, ?_⟩
      intro l' hl'
      rcases List.mem_singleton.1 hl' with rfl
      exact ⟨hl, hmem⟩

lemma parseDiffStep_good {L : List String} (st : Option String × Changes)
    (l : String) (hst : GoodChanges L st.2) (hl : l ∈ L) :
    GoodChanges L (parseDiffStep st l).2 := by
  unfold parseDiffStep
  split
  · exact hst
  · split
    · rename_i hcontent
      split
      · rename_i f heq
        split
        · rename_i hcode
          exact addLine_good hst hcode (show contentLine l = true from hcontent) hl
        · exact hst
      · exact hst
    · exact hst

lemma parseDiff_fold_good {L : List String} :
    ∀ (ls : List String) (st : Option String × Changes),
      (∀ l ∈ ls, l ∈ L) → GoodChanges L st.2 →
      GoodChanges L ((ls.foldl parseDiffStep st).2) := by
  intro ls
  induction ls with
  | nil => intro st _ h; exact h
  | cons l ls ih =>
    intro st hmem hst
    rw [List.foldl_cons]
    exact ih _ (fun x hx => hmem x (List.mem_cons_of_mem _ hx))
      (parseDiffStep_good st l hst (hmem l (List.mem_cons_self _ _)))

lemma get_full_diff_sound (s : String) (p : String × List String)
    (hp : p ∈ get_full_diff_between_commits (some s)) :
    is_code_file p.1 = true ∧
      ∀ l ∈ p.2, contentLine l = true ∧ l ∈ pySplitChar s '\n' := by
  have hgood := parseDiff_fold_good (L := pySplitChar s '\n')
    (pySplitChar s '\n') (none, []) (fun _ h => h)
    (fun q hq => absurd hq (List.not_mem_nil q))
  exact hgood p hp

lemma contentLine_parts {l : String} (h : contentLine l = true) :
    (pyStartswith l "-" || pyStartswith l "+") = true ∧
    pyStartswith l "---" = false ∧ pyStartswith l "+++" = false := by
  unfold contentLine at h
  rw [Bool.and_eq_true] at h
  obtain ⟨h1, h2⟩ := h
  rw [Bool.not_eq_true'] at h2
  rw [Bool.or_eq_false_iff] at h2
  exact ⟨h1, h2.1, h2.2⟩

lemma parseDiffStep_no_header (ch : Changes) (l : String)
    (hl : pyStartswith l "+++ b/" = false) :
    parseDiffStep (none, ch) l = (none, ch) := by
  unfold parseDiffStep
  rw [if_neg (by rw [hl]; exact Bool.false_ne_true)]
  split
  · rfl
  · rfl

lemma parseDiff_no_header :
    ∀ (ls : List String) (ch : Changes),
      (∀ l ∈ ls, pyStartswith l "+++ b/" = false) →
      ls.foldl parseDiffStep (none, ch) = (none, ch) := by
  intro ls
  induction ls with
  | nil => intro ch _; rfl
  | cons l ls ih =>
    intro ch hmem
    rw [List.foldl_cons, parseDiffStep_no_header ch l (hmem l (List.mem_cons_self _ _))]
    exact ih ch (fun x hx => hmem x (List.mem_cons_of_mem _ hx))

/-- The `current_file` tracking of one iteration of the parsing loop,
in isolation: a `+++ b/` header replaces the current file, every other
line leaves it unchanged. -/
def headerStep (cf : Option String) (l : String) : Option String :=
  if pyStartswith l "+++ b/" then some (pyDrop l 6) else cf

lemma parseDiffStep_fst (st : Option String × Changes) (l : String) :
    (parseDiffStep st l).1 = headerStep st.1 l := by
  obtain ⟨cf, ch⟩ := st
  unfold parseDiffStep headerStep
  by_cases hA : pyStartswith l "+++ b/" = true
  · rw [if_pos hA, if_pos hA]
  · rw [if_neg hA, if_neg hA]
    by_cases hB : ((pyStartswith l "-" || pyStartswith l "+")
        && !(pyStartswith l "---" || pyStartswith l "+++")) = true
    · rw [if_pos hB]
      cases cf with
      | none => rfl
      | some f =>
        show (if is_code_file f then ((some f : Option String), addLine ch f l)
            else (some f, ch)).1 = some f
        split
        · rfl
        · rfl
    · rw [if_neg hB]

lemma parseDiff_fold_fst :
    ∀ (ls : List String) (st : Option String × Changes),
      (ls.foldl parseDiffStep st).1 = ls.foldl headerStep st.1 := by
  intro ls
  induction ls with
  | nil => intro st; rfl
  | cons l ls ih =>
    intro st
    rw [List.foldl_cons, List.foldl_cons, ih, parseDiffStep_fst]

lemma isPrefixOf_trans :
    ∀ (a b c : List Char),
      List.isPrefixOf a b = true → List.isPrefixOf b c = true →
      List.isPrefixOf a c = true := by
  intro a
  induction a with
  | nil => intro b c _ _; cases c <;> rfl
  | cons x xs ih =>
    intro b c hab hbc
    cases b with
    | nil => simp [List.isPrefixOf] at hab
    | cons y ys =>
      cases c with
      | nil => simp [List.isPrefixOf] at hbc
      | cons z zs =>
        simp only [List.isPrefixOf, Bool.and_eq_true, beq_iff_eq] at hab hbc ⊢
        exact ⟨hab.1.trans hbc.1, ih ys zs hab.2 hbc.2⟩

lemma contentLine_not_header {l : String} (h : contentLine l = true) :
    pyStartswith l "+++ b/" = false := by
  cases hb : pyStartswith l "+++ b/" with
  | false => rfl
  | true =>
    have h4 : pyStartswith l "+++" = true :=
      isPrefixOf_trans "+++".toList "+++ b/".toList l.toList (by decide) hb
    have hparts := contentLine_parts h
    rw [hparts.2.2] at h4
    exact absurd h4 Bool.false_ne_true

lemma parseDiffStep_records (ch : Changes) (f l : String)
    (hf : is_code_file f = true) (hl : contentLine l = true) :
    parseDiffStep (some f, ch) l = (some f, addLine ch f l) := by
  unfold parseDiffStep
  rw [if_neg (by rw [contentLine_not_header hl]; exact Bool.false_ne_true)]
  rw [if_pos (show ((pyStartswith l "-" || pyStartswith l "+")
      && !(pyStartswith l "---" || pyStartswith l "+++")) = true from hl)]
  show (if is_code_file f then ((some f : Option String), addLine ch f l)
      else (some f, ch)) = (some f, addLine ch f l)
  rw [if_pos hf]

/-- A line `l` is recorded under file `f` in a diff record. -/
def lineRecorded (ch : Changes) (f l : String) : Prop :=
  ∃ ls, (f, ls) ∈ ch ∧ l ∈ ls

lemma lineRecorded_addLine_self (ch : Changes) (f l : String) :
    lineRecorded (addLine ch f l) f l := by
  unfold lineRecorded addLine
  split
  · rename_i hany
    rw [List.any_eq_true] at hany
    obtain ⟨q, hq, hqf⟩ := hany
    rw [decide_eq_true_eq] at hqf
    refine ⟨q.2 ++ [l], ?_, List.mem_append_right _ (List.mem_singleton_self l)⟩
    exact List.mem_map.2 ⟨q, hq, by rw [if_pos hqf, hqf]⟩
  · exact ⟨[l], List.mem_append_right _ (List.mem_singleton_self _),
      List.mem_singleton_self l⟩

lemma lineRecorded_addLine_mono (ch : Changes) (f l f2 l2 : String)
    (h : lineRecorded ch f l) : lineRecorded (addLine ch f2 l2) f l := by
  obtain ⟨ls, hmem, hl⟩ := h
  unfold lineRecorded addLine
  split
  · by_cases hf : f = f2
    · exact ⟨ls ++ [l2],
        List.mem_map.2 ⟨(f, ls), hmem, by rw [if_pos (show (f, ls).1 = f2 from hf)]⟩,
        List.mem_append_left _ hl⟩
    · exact ⟨ls,
        List.mem_map.2 ⟨(f, ls), hmem, by rw [if_neg (show ¬ (f, ls).1 = f2 from hf)]⟩,
        hl⟩
  · exact ⟨ls, List.mem_append_left _ hmem, hl⟩

lemma lineRecorded_step_mono (st : Option String × Changes) (l2 f l : String)
    (h : lineRecorded st.2 f l) : lineRecorded (parseDiffStep st l2).2 f l := by
  unfold parseDiffStep
  split
  · exact h
  · split
    · split
      · split
        · exact lineRecorded_addLine_mono _ _ _ _ _ h
        · exact h
      · exact h
    · exact h

lemma lineRecorded_fold_mono (f l : String) :
    ∀ (ls : List String) (st : Option String × Changes),
      lineRecorded st.2 f l →
      lineRecorded ((ls.foldl parseDiffStep st).2) f l := by
  intro ls
  induction ls with
  | nil => intro st h; exact h
  | cons x xs ih =>
    intro st h
    rw [List.foldl_cons]
    exact ih _ (lineRecorded_step_mono st x f l h)

lemma parseDiff_records (pre : List String) (l : String) (post : List String)
    (f : String) (hhdr : pre.foldl headerStep none = some f)
    (hf : is_code_file f = true) (hl : contentLine l = true) :
    lineRecorded (parseDiff (pre ++ l :: post)) f l := by
  have hfold : parseDiff (pre ++ l :: post)
      = ((l :: post).foldl parseDiffStep
          (pre.foldl parseDiffStep ((none : Option String), ([] : Changes)))).2 := by
    unfold parseDiff
    rw [List.foldl_append]
  rw [hfold, List.foldl_cons]
  have h1 : (pre.foldl parseDiffStep ((none : Option String), ([] : Changes))).1
      = some f := by
    rw [parseDiff_fold_fst]
    exact hhdr
  have heta : pre.foldl parseDiffStep ((none : Option String), ([] : Changes))
      = (some f, (pre.foldl parseDiffStep ((none : Option String), ([] : Changes))).2) := by
    rw [← h1]
  rw [heta, parseDiffStep_records _ f l hf hl]
  exact lineRecorded_fold_mono f l post _ (lineRecorded_addLine_self _ f l)

lemma parseDiff_discards_before_first_header (pre rest : List String)
    (hpre : ∀ x ∈ pre, pyStartswith x "+++ b/" = false) :
    parseDiff (pre ++ rest) = parseDiff rest := by
  unfold parseDiff
  rw [List.foldl_append, parseDiff_no_header pre [] hpre]

/-! ## Claim C7 -/

/-- C7: every file path recorded by `get_full_diff_between_commits`
passes the `_is_code_file` extension allow-list, which contains
`.html` and `.css`; unrecognized paths never appear among the keys. -/
theorem C7_diff_keys_recognized :
    (∀ (gitOutput : Option String) (p : String × List String),
       p ∈ get_full_diff_between_commits gitOutput →
       is_code_file p.1 = true) ∧
    ".html" ∈ code_extensions ∧ ".css" ∈ code_extensions := by
  refine ⟨?_, by decide, by decide⟩
  intro o p hp
  cases o with
  | none => exact absurd hp (List.not_mem_nil p)
  | some s => exact (get_full_diff_sound s p hp).1

/-- Witness for C7: the single recorded path of a small diff is a
recognized source file. -/
theorem C7_diff_keys_recognized_witness : is_code_file "a.py" = true :=
  C7_diff_keys_recognized.1 (some "+++ b/a.py\n-x = 1") ("a.py", ["-x = 1"])
    (by decide)

/-! ## Claim C2 -/

/-- Counterexample for C2 as stated: the diff extractor stores the
content line `-x = 1` verbatim, not with the leading marker stripped
(stripping happens later, in the callers). -/
theorem C2_counterexample_marker_retained :
    get_full_diff_between_commits (some "+++ b/a.py\n-x = 1")
      = [("a.py", ["-x = 1"])] ∧
    get_full_diff_between_commits (some "+++ b/a.py\n-x = 1")
      ≠ [("a.py", ["x = 1"])] :=
  ⟨by decide, by decide⟩

/-- C2 amended, both directions of the line classification.
(i) Soundness: a `+++`/`---` header line is never recorded as content;
every recorded line begins with `+` or `-` and is stored verbatim (an
unmodified line of the diff output, marker retained — the marker is
stripped only by downstream consumers).
(ii) Completeness: a line beginning with `+` or `-` but not with
`+++`/`---`, encountered after a `+++ b/` header whose most recent
occurrence names a recognized source file `f` (the current file of the
loop, computed by `headerStep`, which `parseDiff_fold_fst` proves equal
to the loop's own tracking), IS recorded verbatim under `f` in the
returned mapping.
(iii) Discard: all lines before the first `+++ b/` header contribute
nothing — the result equals the parse of the remaining lines alone. -/
theorem C2_amended_line_classification :
    (∀ s (p : String × List String),
       p ∈ get_full_diff_between_commits (some s) →
       ∀ l ∈ p.2,
         (pyStartswith l "-" || pyStartswith l "+") = true ∧
         pyStartswith l "+++" = false ∧
         pyStartswith l "---" = false ∧
         l ∈ pySplitChar s '\n') ∧
    (∀ s (pre : List String) (l : String) (post : List String) (f : String),
       pySplitChar s '\n' = pre ++ l :: post →
       pre.foldl headerStep none = some f →
       is_code_file f = true →
       (pyStartswith l "-" || pyStartswith l "+") = true →
       pyStartswith l "---" = false →
       pyStartswith l "+++" = false →
       ∃ ls, (f, ls) ∈ get_full_diff_between_commits (some s) ∧ l ∈ ls) ∧
    (∀ s (pre rest : List String),
       pySplitChar s '\n' = pre ++ rest →
       (∀ x ∈ pre, pyStartswith x "+++ b/" = false) →
       get_full_diff_between_commits (some s) = parseDiff rest) := by
  refine ⟨?_, ?_, ?_⟩
  · intro s p hp l hl
    have hsound := (get_full_diff_sound s p hp).2 l hl
    have hparts := contentLine_parts hsound.1
    exact ⟨hparts.1, hparts.2.2, hparts.2.1, hsound.2⟩
  · intro s pre l post f hsplit hhdr hf h1 h2 h3
    have hcl : contentLine l = true := by
      unfold contentLine
      rw [h1, h2, h3]
      rfl
    have hrec := parseDiff_records pre l post f hhdr hf hcl
    show ∃ ls, (f, ls) ∈ parseDiff (pySplitChar s '\n') ∧ l ∈ ls
    rw [hsplit]
    exact hrec
  · intro s pre rest hsplit hpre
    show parseDiff (pySplitChar s '\n') = parseDiff rest
    rw [hsplit]
    exact parseDiff_discards_before_first_header pre rest hpre

/-- Witness for C2 amended: the recorded line `-x = 1` is a verbatim
marker-bearing input line; a removal line following the `+++ b/a.py`
header is recorded under `a.py`; and a content line before the first
header is discarded while the rest of the diff is still parsed. -/
theorem C2_amended_line_classification_witness :
    ((pyStartswith "-x = 1" "-" || pyStartswith "-x = 1" "+") = true ∧
     pyStartswith "-x = 1" "+++" = false ∧
     pyStartswith "-x = 1" "---" = false ∧
     "-x = 1" ∈ pySplitChar "+++ b/a.py\n-x = 1" '\n') ∧
    (∃ ls, ("a.py", ls) ∈
        get_full_diff_between_commits (some "junk\n+++ b/a.py\n-x = 1") ∧
      "-x = 1" ∈ ls) ∧
    get_full_diff_between_commits (some "-junk\n+++ b/a.py\n-x = 1")
      = parseDiff ["+++ b/a.py", "-x = 1"] := by
  refine ⟨?_, ?_, ?_⟩
  · exact C2_amended_line_classification.1 "+++ b/a.py\n-x = 1"
      ("a.py", ["-x = 1"]) (by decide) "-x = 1" (by decide)
  · exact C2_amended_line_classification.2.1 "junk\n+++ b/a.py\n-x = 1"
      ["junk", "+++ b/a.py"] "-x = 1" [] "a.py" (by decide) (by decide)
      (by decide) (by decide) (by decide) (by decide)
  · exact C2_amended_line_classification.2.2 "-junk\n+++ b/a.py\n-x = 1"
      ["-junk"] ["+++ b/a.py", "-x = 1"] (by decide) (by decide)

/-! ## Claim C1 -/

/-- The oldest commit of the C1 scenario. -/
def commitC1 : Commit := ⟨"c1c1c1c1c1", "initial", "2024-01-01", "dev"⟩

/-- The middle commit of the C1 scenario: deletes two lines of `a.py`. -/
def commitC2 : Commit := ⟨"c2c2c2c2c2", "remove two lines", "2024-01-02", "dev"⟩

/-- The newest commit of the C1 scenario: only adds the file `b.py`. -/
def commitC3 : Commit := ⟨"c3c3c3c3c3", "add b.py", "2024-01-03", "dev"⟩

/-- The diff oracle of the C1 scenario: `git diff c1 c2 --unified=0`
removes two lines of `a.py`; `git diff c2 c3 --unified=0` only adds the
new file `b.py`. -/
def scenarioDiffs : String → String → Option String := fun old new =>
  if old = "c1c1c1c1c1" && new = "c2c2c2c2c2" then
    some "diff --git a/a.py b/a.py\n--- a/a.py\n+++ b/a.py\n@@ -1,2 +0,0 @@\n-x = 1\n-y = 2"
  else if old = "c2c2c2c2c2" && new = "c3c3c3c3c3" then
    some "diff --git a/b.py b/b.py\nnew file mode 100644\n--- /dev/null\n+++ b/b.py\n@@ -0,0 +1,2 @@\n+print(1)\n+print(2)"
  else none

/-- C1 fails on the code: on the scenario `[C3, C2, C1]` the timeline
has TWO entries, not one. The add-only pair (C3, C2) also emits an
entry, attributed to C3 with `total_lines_deleted = 0` and
`files_modified = ["b.py"]`, because the deletions dict comprehension
keeps every diffed file with a (possibly empty) list of removed lines
and `if deletions:` / `if code_deletions:` only test dict
non-emptiness. The (C2, C1) pair produces the expected entry with
2 deleted lines of `a.py`. -/
theorem C1_timeline_emits_zero_deletion_entry :
    get_feature_loss_context [commitC3, commitC2, commitC1] scenarioDiffs
      = .ok
        { total_commits_analyzed := 3
          commits_with_deletions := 2
          deletion_timeline :=
            [ { commit_hash := "c3c3c3c3"
                commit_message := "add b.py"
                commit_date := "2024-01-03"
                commit_author := "dev"
                files_modified := ["b.py"]
                total_lines_deleted := 0 },
              { commit_hash := "c2c2c2c2"
                commit_message := "remove two lines"
                commit_date := "2024-01-02"
                commit_author := "dev"
                files_modified := ["a.py"]
                total_lines_deleted := 2 } ]
          oldest_commit_hash := "c1c1c1c1"
          oldest_commit_date := "2024-01-01"
          newest_commit_hash := "c3c3c3c3"
          newest_commit_date := "2024-01-03" } := by
  rfl

/-! ## Claim C6 -/

lemma length_foldl_append :
    ∀ (l : List String) (s : String),
      (l.foldl (· ++ ·) s).length = s.length + (l.map String.length).sum := by
  intro l
  induction l with
  | nil => intro s; simp
  | cons x xs ih =>
    intro s
    rw [List.foldl_cons, ih, String.length_append, List.map_cons, List.sum_cons]
    omega

lemma length_join (l : List String) :
    (String.join l).length = (l.map String.length).sum := by
  show (l.foldl (· ++ ·) "").length = _
  rw [length_foldl_append]
  simp

lemma greedy_sum (b : Nat) :
    ∀ (es : List String) (used : Nat), used ≤ b →
      used + ((greedyLines b es used).map String.length).sum ≤ b := by
  intro es
  induction es with
  | nil => intro used h; simpa using h
  | cons e es ih =>
    intro used h
    unfold greedyLines
    split
    · simpa using h
    · rename_i hlt
      have h2 : used + e.length ≤ b := Nat.le_of_not_lt hlt
      have h3 := ih (used + e.length) h2
      rw [List.map_cons, List.sum_cons]
      omega

lemma greedy_prefix (b : Nat) :
    ∀ (es : List String) (used : Nat), ∃ k, greedyLines b es used = es.take k := by
  intro es
  induction es with
  | nil => intro used; exact ⟨0, rfl⟩
  | cons e es ih =>
    intro used
    unfold greedyLines
    split
    · exact ⟨0, rfl⟩
    · obtain ⟨k, hk⟩ := ih (used + e.length)
      exact ⟨k + 1, by rw [hk, List.take_succ_cons]⟩

lemma fileContent_le (lines : List String) : (fileContent lines).length ≤ 3000 := by
  unfold fileContent
  rw [length_join]
  have h := greedy_sum 3000 (numberedLines lines) 0 (Nat.zero_le _)
  omega

lemma fileContent_line_boundary (lines : List String) :
    ∃ k, fileContent lines = String.join ((numberedLines lines).take k) := by
  obtain ⟨k, hk⟩ := greedy_prefix 3000 (numberedLines lines) 0
  exact ⟨k, by unfold fileContent; rw [hk]⟩

lemma get_code_summary_le (p : String) (t : FSTree) :
    (get_code_summary p t).length ≤ 45000 := by
  have h : (get_code_summary p t).length
      = ((walkSummary p t).toList.take 45000).length := rfl
  rw [h, List.length_take]
  exact min_le_left _ _

lemma fileBlock_skip_name (f : FileEntry) (h : shouldSkipName f.name = true) :
    fileBlock f = "" := by
  unfold fileBlock
  rw [if_pos h]

lemma fileBlock_skip_size (f : FileEntry) (h : 102400 < f.size) :
    fileBlock f = "" := by
  unfold fileBlock
  by_cases hn : shouldSkipName f.name = true
  · rw [if_pos hn]
  · rw [if_neg hn, if_pos h]

lemma empty_append_str (s : String) : "" ++ s = s := rfl

lemma walkList_prune (parent : String) (t : FSTree) (ts : List FSTree)
    (h : FSTree.base t ∈ ignore_dirs) :
    walkList parent (t :: ts) = walkList parent ts := by
  rw [walkList]
  rw [if_pos h, empty_append_str]

/-- C6: the summary returned by `_get_code_summary` never exceeds the
45000-character global budget; each file's emitted line-numbered
content never exceeds the 3000-character per-file budget and is a
prefix of the file's numbered lines (emission stops at a line boundary,
never mid-line); a file whose name matches the binary/lock/media/log
suffix list, or whose size exceeds 100 KiB, contributes nothing (it is
never opened); and a subdirectory in the `ignore_dirs` set is pruned
before descent, contributing nothing to the walk. -/
theorem C6_summary_budgets :
    (∀ (repo_path : String) (tree : FSTree),
       (get_code_summary repo_path tree).length ≤ 45000) ∧
    (∀ lines : List String, (fileContent lines).length ≤ 3000) ∧
    (∀ lines : List String,
       ∃ k, fileContent lines = String.join ((numberedLines lines).take k)) ∧
    (∀ f : FileEntry, shouldSkipName f.name = true → fileBlock f = "") ∧
    (∀ f : FileEntry, 102400 < f.size → fileBlock f = "") ∧
    (∀ (parent : String) (t : FSTree) (ts : List FSTree),
       FSTree.base t ∈ ignore_dirs →
       walkList parent (t :: ts) = walkList parent ts) :=
  ⟨get_code_summary_le, fileContent_le, fileContent_line_boundary,
    fileBlock_skip_name, fileBlock_skip_size, walkList_prune⟩

/-- Witness for C6 at a concrete tree: a one-file tree stays within the
global budget, an oversized lock file contributes nothing, and a
`node_modules` subtree is pruned. -/
theorem C6_summary_budgets_witness :
    (get_code_summary "repo"
        (.node "repo" [⟨"app.py", 10, ["x = 1\n"]⟩] [])).length ≤ 45000 ∧
    fileBlock ⟨"package.lock", 999999, ["junk"]⟩ = "" ∧
    fileBlock ⟨"big.py", 102401, ["x"]⟩ = "" ∧
    walkList "repo" [.node "node_modules" [⟨"m.js", 5, ["j"]⟩] []]
      = walkList "repo" [] := by
  refine ⟨?_, ?_, ?_, ?_⟩
  · exact C6_summary_budgets.1 "repo" (.node "repo" [⟨"app.py", 10, ["x = 1\n"]⟩] [])
  · exact C6_summary_budgets.2.2.2.1 ⟨"package.lock", 999999, ["junk"]⟩ (by decide)
  · exact C6_summary_budgets.2.2.2.2.1 ⟨"big.py", 102401, ["x"]⟩ (by decide)
  · exact C6_summary_budgets.2.2.2.2.2 "repo" (.node "node_modules" [⟨"m.js", 5, ["j"]⟩] [])
      [] (by decide)

end DriftX

